import Mathlib

/-!
Verification of the hierarchical cost-aggregation engine of the
cost-tree-example repository.

The development shallowly embeds the two core components:

* `processData` (src/utils/dataProcessor.ts): folds a sequence of flat CSV
  rows into a cost tree (`buildTree`, one `insertPath` per row) and then runs
  the bottom-up aggregation pass (`calcTotal`).
* `extractCategories` / `indexTree` (src/App.tsx): the depth-bounded,
  positive-cost pre-order flattening of the built tree into category options.

Monetary amounts are modelled as exact rationals (`ℚ`); JavaScript
`parseFloat` is modelled by `parseFloat` below (leading-whitespace skip,
optional sign, decimal digits with optional fraction and exponent, longest
valid numeric prefix; no digits at all gives `none`; the non-finite
`Infinity` forms are outside the rational model).  JavaScript
`String.prototype.trim` is modelled by `trimStr`.
-/

/-- Digit characters to the natural number they denote, most significant
first (`foldl` mirrors left-to-right reading of the digit run). -/
def digitsVal (l : List Char) : ℕ :=
  l.foldl (fun a c => 10 * a + (c.toNat - '0'.toNat)) 0

/-- Model of JavaScript `String.prototype.trim`: strip whitespace from both
ends. -/
def trimStr (s : String) : String :=
  ⟨((s.data.dropWhile Char.isWhitespace).reverse.dropWhile Char.isWhitespace).reverse⟩

/-- The purely lexical part of JavaScript `parseFloat`: skip leading
whitespace, read an optional sign, then the longest prefix of the form
`digits[.digits][e[±]digits]`.  Returns `none` (NaN) when no digit is found,
otherwise the minus-sign flag, the integer digits, the fraction digits and
the (signed) decimal exponent of the parsed numeric prefix. -/
def parseFloatParts (s : String) : Option (Bool × List Char × List Char × ℤ) :=
  let cs := s.data.dropWhile Char.isWhitespace
  let neg : Bool := match cs with
    | '-' :: _ => true
    | _ => false
  let cs1 : List Char := match cs with
    | '-' :: r => r
    | '+' :: r => r
    | _ => cs
  let ip := cs1.takeWhile Char.isDigit
  let cs2 := cs1.dropWhile Char.isDigit
  let fp : List Char := match cs2 with
    | '.' :: r => r.takeWhile Char.isDigit
    | _ => []
  let cs3 : List Char := match cs2 with
    | '.' :: r => r.dropWhile Char.isDigit
    | _ => cs2
  if ip.isEmpty ∧ fp.isEmpty then none
  else
    let e : ℤ := match cs3 with
      | c :: r =>
        if c = 'e' ∨ c = 'E' then
          let esgn : ℤ := match r with
            | '-' :: _ => -1
            | _ => 1
          let r2 : List Char := match r with
            | '-' :: r3 => r3
            | '+' :: r3 => r3
            | _ => r
          let ed := r2.takeWhile Char.isDigit
          if ed.isEmpty then 0 else esgn * (digitsVal ed : ℤ)
        else 0
      | [] => 0
    some (neg, ip, fp, e)

/-- The numeric value denoted by a sign flag, integer digits, fraction
digits and decimal exponent. -/
def ratOfParts : Bool × List Char × List Char × ℤ → ℚ
  | (neg, ip, fp, e) =>
    (if neg then (-1 : ℚ) else 1) *
      ((digitsVal ip : ℚ) + (digitsVal fp : ℚ) / (10 : ℚ) ^ fp.length) *
      (10 : ℚ) ^ e

/-- Model of JavaScript `parseFloat`: the value of the longest valid numeric
prefix, or `none` (NaN) when there is none. -/
def parseFloat (s : String) : Option ℚ :=
  (parseFloatParts s).map ratOfParts

/-- `parseFloat(row['成本']) || 0`: an absent cell or an unparsable string
contributes exactly `0`. -/
def parseAmount (a : Option String) : ℚ :=
  match a with
  | none => 0
  | some s => (parseFloat s).getD 0

/-- One input row: the six level columns (`一级类目` … `六级类目`, an absent
cell modelled as `""`, which the walk treats identically) and the raw
`成本` (amount) cell, `none` when the column is absent. -/
structure Row where
  levels : List String
  amount : Option String
deriving DecidableEq

/-- The trimmed value of level column `i` (0-based) of a row. -/
def trimAt (r : Row) (i : ℕ) : String := trimStr (r.levels.getD i "")

/-- The category path a row's walk follows: the per-row loop over the six
level keys reads and trims each cell and `break`s at the first blank, so the
path is the longest all-nonblank prefix of the six trimmed cells. -/
def rowPath (r : Row) : List String :=
  ((List.range 6).map (trimAt r)).takeWhile (fun s => s ≠ "")

/-- `CostNode` (dataProcessor.ts): name, level, cost (direct cost), ordered
children, totalCost. -/
inductive CostNode : Type where
  | mk : String → ℕ → ℚ → List CostNode → ℚ → CostNode

def CostNode.name : CostNode → String
  | .mk n _ _ _ _ => n

def CostNode.level : CostNode → ℕ
  | .mk _ l _ _ _ => l

def CostNode.cost : CostNode → ℚ
  | .mk _ _ c _ _ => c

def CostNode.children : CostNode → List CostNode
  | .mk _ _ _ ch _ => ch

def CostNode.totalCost : CostNode → ℚ
  | .mk _ _ _ _ t => t

/-- `currentNode.children.find(c => c.name === name)`. -/
def findChild (n : String) : List CostNode → Option CostNode
  | [] => none
  | ch :: chs => if ch.name = n then some ch else findChild n chs

/-- Write back the updated child: the source mutates the found child in
place (hence: replace the first child of that name), or pushes a freshly
created child at the end of the list. -/
def setChild (n : String) (newChild : CostNode) : List CostNode → List CostNode
  | [] => [newChild]
  | ch :: chs => if ch.name = n then newChild :: chs else ch :: setChild n newChild chs

/-- One row's walk: descend along `path` from the current node (`i` is the
0-based level index, so a child created while processing level `i` gets
`level = i + 1`), creating missing children, and add `c` to the `cost` of the
node ultimately reached. -/
def insertPath : List String → ℚ → ℕ → CostNode → CostNode
  | [], c, _, .mk nm lv c0 ch tc => .mk nm lv (c0 + c) ch tc
  | n :: rest, c, i, .mk nm lv c0 ch tc =>
    let target : CostNode := (findChild n ch).getD (.mk n (i + 1) 0 [] 0)
    .mk nm lv c0 (setChild n (insertPath rest c (i + 1) target) ch) tc

/-- The root as initialized by `processData`. -/
def rootInit : CostNode := .mk "Total" 0 0 [] 0

/-- Processing of one row: walk its category path from the root (level index
0) and accumulate its parsed amount at the reached node. -/
def insertRow (t : CostNode) (r : Row) : CostNode :=
  insertPath (rowPath r) (parseAmount r.amount) 0 t

/-- The ingestion pass: `data.forEach(row => …)`. -/
def buildTree (rows : List Row) : CostNode :=
  rows.foldl insertRow rootInit

/-- `reduce((sum, child) => sum + calculateTotal(child), 0)` sums the
returned `totalCost` values of the already-processed children. -/
def sumTotals (l : List CostNode) : ℚ := (l.map CostNode.totalCost).sum

mutual
/-- `calculateTotal`: bottom-up pass writing
`totalCost = cost + Σ totalCost(child)` into every node. -/
def calcTotal : CostNode → CostNode
  | .mk nm lv c ch _ =>
    let ch2 := calcTotalL ch
    .mk nm lv c ch2 (c + sumTotals ch2)

def calcTotalL : List CostNode → List CostNode
  | [] => []
  | n :: ns => calcTotal n :: calcTotalL ns
end

/-- `processData`: ingest all rows, then run the aggregation pass. -/
def processData (rows : List Row) : CostNode :=
  calcTotal (buildTree rows)

mutual
/-- Sum of all `cost` fields in a subtree (the total cost mass). -/
def mass : CostNode → ℚ
  | .mk _ _ c ch _ => c + massL ch

def massL : List CostNode → ℚ
  | [] => 0
  | n :: ns => mass n + massL ns
end

/-- Look up the node reached by following a trimmed-name path via
first-match child lookup. -/
def nodeAt : CostNode → List String → Option CostNode
  | t, [] => some t
  | t, n :: rest =>
    match findChild n t.children with
    | some c => nodeAt c rest
    | none => none

/-- Whether a node exists at the given path. -/
def hasPath (t : CostNode) (p : List String) : Bool := (nodeAt t p).isSome

/-- The `cost` (direct cost) of the node at a path, `0` when absent. -/
def costAt (t : CostNode) (p : List String) : ℚ :=
  ((nodeAt t p).map CostNode.cost).getD 0

/-- The `totalCost` of the node at a path, `0` when absent. -/
def totalAt (t : CostNode) (p : List String) : ℚ :=
  ((nodeAt t p).map CostNode.totalCost).getD 0

/-- The subtree cost mass of the node at a path, `0` when absent. -/
def massAt (t : CostNode) (p : List String) : ℚ :=
  ((nodeAt t p).map mass).getD 0

mutual
/-- Depth-first pre-order listing of all nodes of a tree. -/
def preorder : CostNode → List CostNode
  | .mk nm lv c ch tc => .mk nm lv c ch tc :: preorderL ch

def preorderL : List CostNode → List CostNode
  | [] => []
  | n :: ns => preorder n ++ preorderL ns
end

/-- `CategoryOption` (App.tsx): level, joined display label, path, and the
referenced node. -/
structure CategoryOption where
  level : ℕ
  name : String
  path : List String
  node : CostNode

mutual
/-- `extractCategories` (App.tsx): emit the node when
`1 ≤ level ≤ 3 ∧ totalCost > 0`, and recurse into the children only while
the current node's level is `< 3`. -/
def extractCategories : CostNode → List String → List CategoryOption
  | .mk nm lv c ch tc, path =>
    let self : List CategoryOption :=
      if 1 ≤ lv ∧ lv ≤ 3 ∧ 0 < tc then
        [⟨lv, String.intercalate " > " (path ++ [nm]), path ++ [nm], .mk nm lv c ch tc⟩]
      else []
    let deeper : List CategoryOption :=
      if lv < 3 then extractL ch (path ++ [nm]) else []
    self ++ deeper

def extractL : List CostNode → List String → List CategoryOption
  | [], _ => []
  | n :: ns, path => extractCategories n path ++ extractL ns path
end

/-- The category indexer is started on each direct child of the root with an
empty accumulated path (the hardcoded whole-tree entry for the root itself is
prepended by the caller and is not part of this traversal). -/
def indexTree (t : CostNode) : List CategoryOption :=
  extractL t.children []

/-- The emission filter of the indexer, as a predicate on nodes. -/
def emitP (m : CostNode) : Bool :=
  decide (1 ≤ m.level) && decide (m.level ≤ 3) && decide (0 < m.totalCost)

/-! ### Basic projection and helper lemmas -/

@[simp] theorem CostNode.name_mk (nm : String) (lv : ℕ) (c : ℚ) (ch : List CostNode) (tc : ℚ) :
    (CostNode.mk nm lv c ch tc).name = nm := rfl

@[simp] theorem CostNode.level_mk (nm : String) (lv : ℕ) (c : ℚ) (ch : List CostNode) (tc : ℚ) :
    (CostNode.mk nm lv c ch tc).level = lv := rfl

@[simp] theorem CostNode.cost_mk (nm : String) (lv : ℕ) (c : ℚ) (ch : List CostNode) (tc : ℚ) :
    (CostNode.mk nm lv c ch tc).cost = c := rfl

@[simp] theorem CostNode.children_mk (nm : String) (lv : ℕ) (c : ℚ) (ch : List CostNode) (tc : ℚ) :
    (CostNode.mk nm lv c ch tc).children = ch := rfl

@[simp] theorem CostNode.totalCost_mk (nm : String) (lv : ℕ) (c : ℚ) (ch : List CostNode) (tc : ℚ) :
    (CostNode.mk nm lv c ch tc).totalCost = tc := rfl

theorem CostNode.eta : ∀ t : CostNode, CostNode.mk t.name t.level t.cost t.children t.totalCost = t
  | .mk _ _ _ _ _ => rfl

/-- Nested induction principle for `CostNode`. -/
theorem CostNode.my_ind (P : CostNode → Prop)
    (h : ∀ (nm : String) (lv : ℕ) (c : ℚ) (ch : List CostNode) (tc : ℚ),
      (∀ x ∈ ch, P x) → P (.mk nm lv c ch tc)) : ∀ t, P t := by
  intro t
  induction t using CostNode.rec (motive_2 := fun l => ∀ x ∈ l, P x) with
  | mk nm lv c ch tc ih => exact h nm lv c ch tc ih
  | nil =>
    rename_i x hx
    cases hx
  | cons a l iha ihl =>
    rename_i x hx
    rcases List.mem_cons.mp hx with h1 | h2
    · exact h1 ▸ iha
    · exact ihl x h2

theorem findChild_name {n : String} : ∀ {l : List CostNode} {c : CostNode},
    findChild n l = some c → c.name = n := by
  intro l
  induction l with
  | nil => intro c h; simp [findChild] at h
  | cons a l ih =>
    intro c h
    by_cases ha : a.name = n
    · simp only [findChild, ha, if_true, Option.some.injEq] at h
      exact h ▸ ha
    · simp only [findChild, ha, if_false] at h
      exact ih h

theorem findChild_eq_none_iff {n : String} : ∀ {l : List CostNode},
    findChild n l = none ↔ n ∉ l.map CostNode.name := by
  intro l
  induction l with
  | nil => simp [findChild]
  | cons a l ih =>
    by_cases ha : a.name = n
    · simp [findChild, ha]
    · simp only [findChild, ha, if_false, List.map_cons, List.mem_cons, not_or]
      rw [ih]
      constructor
      · intro hn
        exact ⟨fun h => ha h.symm, hn⟩
      · intro hh
        exact hh.2

theorem findChild_setChild_same {n : String} {y : CostNode} (hy : y.name = n) :
    ∀ (l : List CostNode), findChild n (setChild n y l) = some y := by
  intro l
  induction l with
  | nil => simp [setChild, findChild, hy]
  | cons a l ih =>
    by_cases ha : a.name = n
    · simp [setChild, findChild, ha, hy]
    · simp [setChild, findChild, ha, ih]

theorem findChild_setChild_other {n x : String} {y : CostNode} (hy : y.name = n)
    (hx : x ≠ n) : ∀ (l : List CostNode), findChild x (setChild n y l) = findChild x l := by
  have hyx : ¬ y.name = x := by
    rw [hy]
    exact fun h => hx h.symm
  have hnx : ¬ n = x := fun h => hx h.symm
  intro l
  induction l with
  | nil => simp [setChild, findChild, hyx]
  | cons a l ih =>
    by_cases ha : a.name = n
    · have hax : ¬ a.name = x := by
        rw [ha]
        exact fun h => hx h.symm
      simp [setChild, findChild, ha, hax, hyx, hnx]
    · by_cases hax : a.name = x
      · simp [setChild, findChild, ha, hax, hx]
      · simp [setChild, findChild, ha, hax, ih]

theorem mem_setChild {n : String} {y x : CostNode} :
    ∀ {l : List CostNode}, x ∈ setChild n y l → x = y ∨ x ∈ l := by
  intro l
  induction l with
  | nil => intro h; simp [setChild] at h; exact Or.inl h
  | cons a l ih =>
    intro h
    by_cases ha : a.name = n
    · simp [setChild, ha] at h
      rcases h with h | h
      · exact Or.inl h
      · exact Or.inr (List.mem_cons_of_mem _ h)
    · simp [setChild, ha] at h
      rcases h with h | h
      · exact Or.inr (h ▸ List.mem_cons_self a l)
      · rcases ih h with h1 | h2
        · exact Or.inl h1
        · exact Or.inr (List.mem_cons_of_mem _ h2)

theorem setChild_map_name_found {n : String} {y : CostNode} (hy : y.name = n) :
    ∀ {l : List CostNode}, findChild n l ≠ none →
      (setChild n y l).map CostNode.name = l.map CostNode.name := by
  intro l
  induction l with
  | nil => intro h; simp [findChild] at h
  | cons a l ih =>
    intro h
    by_cases ha : a.name = n
    · simp [setChild, ha, hy]
    · simp [findChild, ha] at h
      simp [setChild, ha, ih h]

theorem setChild_map_name_notfound {n : String} {y : CostNode} (hy : y.name = n) :
    ∀ {l : List CostNode}, findChild n l = none →
      (setChild n y l).map CostNode.name = l.map CostNode.name ++ [n] := by
  intro l
  induction l with
  | nil => intro _; simp [setChild, hy]
  | cons a l ih =>
    intro h
    by_cases ha : a.name = n
    · simp [findChild, ha] at h
    · simp [findChild, ha] at h
      simp [setChild, ha, ih h]

/-- `insertPath` never changes the name, the level, the `totalCost` slot, or
(for a nonempty path) the `cost` of the node it starts at. -/
theorem insertPath_name : ∀ (p : List String) (c : ℚ) (i : ℕ) (t : CostNode),
    (insertPath p c i t).name = t.name := by
  intro p c i t
  cases t with
  | mk nm lv c0 ch tc => cases p <;> simp [insertPath]

theorem insertPath_level : ∀ (p : List String) (c : ℚ) (i : ℕ) (t : CostNode),
    (insertPath p c i t).level = t.level := by
  intro p c i t
  cases t with
  | mk nm lv c0 ch tc => cases p <;> simp [insertPath]

/-- The name of the updated/created child written back by one `insertPath`
step is the looked-up name. -/
theorem insertPath_target_name {n : String} {ch : List CostNode} (rest : List String)
    (c : ℚ) (i : ℕ) :
    (insertPath rest c (i + 1) ((findChild n ch).getD (.mk n (i + 1) 0 [] 0))).name = n := by
  rw [insertPath_name]
  cases hf : findChild n ch with
  | none => simp
  | some c1 => simp [findChild_name hf]

theorem massL_setChild {n : String} {y : CostNode} :
    ∀ {l : List CostNode}, massL (setChild n y l) =
      massL l + mass y - (match findChild n l with | some c => mass c | none => 0) := by
  intro l
  induction l with
  | nil => simp [setChild, findChild, massL]
  | cons a l ih =>
    by_cases ha : a.name = n
    · simp [setChild, findChild, ha, massL]
      ring
    · simp [setChild, findChild, ha, massL, ih]
      ring

theorem mass_insertPath : ∀ (p : List String) (c : ℚ) (i : ℕ) (t : CostNode),
    mass (insertPath p c i t) = mass t + c := by
  intro p
  induction p with
  | nil =>
    intro c i t
    cases t with
    | mk nm lv c0 ch tc => simp [insertPath, mass]; ring
  | cons n rest ih =>
    intro c i t
    cases t with
    | mk nm lv c0 ch tc =>
      simp only [insertPath, mass, massL_setChild, ih]
      cases hf : findChild n ch with
      | none =>
        simp [mass, massL]
        ring
      | some c1 =>
        simp
        ring

/-! ### Path lookup vs. a single row insertion -/

theorem nodeAt_cons (t : CostNode) (x : String) (p : List String) :
    nodeAt t (x :: p) =
      (match findChild x t.children with
        | some c => nodeAt c p
        | none => none) := by
  cases t
  rfl

theorem costAt_cons (t : CostNode) (x : String) (p : List String) :
    costAt t (x :: p) =
      (match findChild x t.children with
        | some c => costAt c p
        | none => 0) := by
  simp only [costAt, nodeAt_cons]
  cases findChild x t.children with
  | none => rfl
  | some c => rfl

theorem massAt_cons (t : CostNode) (x : String) (p : List String) :
    massAt t (x :: p) =
      (match findChild x t.children with
        | some c => massAt c p
        | none => 0) := by
  simp only [massAt, nodeAt_cons]
  cases findChild x t.children with
  | none => rfl
  | some c => rfl

theorem totalAt_cons (t : CostNode) (x : String) (p : List String) :
    totalAt t (x :: p) =
      (match findChild x t.children with
        | some c => totalAt c p
        | none => 0) := by
  simp only [totalAt, nodeAt_cons]
  cases findChild x t.children with
  | none => rfl
  | some c => rfl

theorem hasPath_cons (t : CostNode) (x : String) (p : List String) :
    hasPath t (x :: p) =
      (match findChild x t.children with
        | some c => hasPath c p
        | none => false) := by
  simp only [hasPath, nodeAt_cons]
  cases findChild x t.children with
  | none => rfl
  | some c => rfl

theorem nodeAt_leaf (nm : String) (lv : ℕ) (c tc : ℚ) (x : String) (p : List String) :
    nodeAt (.mk nm lv c [] tc) (x :: p) = none := by
  rw [nodeAt_cons]
  rfl

theorem costAt_leaf (nm : String) (lv : ℕ) (tc : ℚ) (p : List String) :
    costAt (.mk nm lv 0 [] tc) p = 0 := by
  cases p with
  | nil => rfl
  | cons x p' =>
    simp only [costAt, nodeAt_leaf]
    rfl

theorem massAt_leaf (nm : String) (lv : ℕ) (tc : ℚ) (p : List String) :
    massAt (.mk nm lv 0 [] tc) p = 0 := by
  cases p with
  | nil => simp [massAt, nodeAt, mass, massL]
  | cons x p' =>
    simp only [massAt, nodeAt_leaf]
    rfl

theorem hasPath_leaf (nm : String) (lv : ℕ) (c tc : ℚ) (x : String) (p : List String) :
    hasPath (.mk nm lv c [] tc) (x :: p) = false := by
  simp only [hasPath, nodeAt_leaf]
  rfl

/-- Effect of one row insertion on the direct cost seen at any path: only the
node at exactly the inserted path gains the amount. -/
theorem costAt_insertPath : ∀ (q : List String) (c : ℚ) (i : ℕ) (t : CostNode) (p : List String),
    costAt (insertPath q c i t) p = costAt t p + if p = q then c else 0 := by
  intro q
  induction q with
  | nil =>
    intro c i t p
    cases t with
    | mk nm lv c0 ch tc =>
      cases p with
      | nil => simp [insertPath, costAt, nodeAt]
      | cons x p' =>
        rw [show insertPath [] c i (.mk nm lv c0 ch tc) = .mk nm lv (c0 + c) ch tc from rfl]
        rw [costAt_cons, costAt_cons]
        simp
  | cons n rest ih =>
    intro c i t p
    cases t with
    | mk nm lv c0 ch tc =>
      rw [show insertPath (n :: rest) c i (.mk nm lv c0 ch tc) =
        .mk nm lv c0
          (setChild n (insertPath rest c (i + 1) ((findChild n ch).getD (.mk n (i + 1) 0 [] 0))) ch)
          tc from rfl]
      have hyname : (insertPath rest c (i + 1) ((findChild n ch).getD (.mk n (i + 1) 0 [] 0))).name = n :=
        insertPath_target_name rest c i
      cases p with
      | nil => simp [costAt, nodeAt]
      | cons x p' =>
        rw [costAt_cons, costAt_cons]
        by_cases hx : x = n
        · subst hx
          simp only [CostNode.children_mk, findChild_setChild_same hyname]
          cases hf : findChild x ch with
          | none =>
            simp only [hf, Option.getD_none, ih]
            rw [costAt_leaf]
            simp [List.cons.injEq]
          | some c1 =>
            simp only [hf, Option.getD_some, ih]
            simp [List.cons.injEq]
        · simp only [CostNode.children_mk, findChild_setChild_other hyname hx]
          have : ¬ (x :: p' = n :: rest) := by simp [hx]
          rw [if_neg this]
          cases findChild x ch <;> simp

theorem massAt_nil (t : CostNode) : massAt t [] = mass t := by
  simp [massAt, nodeAt]

theorem costAt_nil (t : CostNode) : costAt t [] = t.cost := by
  simp [costAt, nodeAt]

theorem totalAt_nil (t : CostNode) : totalAt t [] = t.totalCost := by
  simp [totalAt, nodeAt]

theorem hasPath_nil (t : CostNode) : hasPath t [] = true := by
  simp [hasPath, nodeAt]

/-- Effect of one row insertion on subtree cost mass: every node on the
inserted path (and only those) gains the amount. -/
theorem massAt_insertPath : ∀ (q : List String) (c : ℚ) (i : ℕ) (t : CostNode) (p : List String),
    massAt (insertPath q c i t) p = massAt t p + if p <+: q then c else 0 := by
  intro q
  induction q with
  | nil =>
    intro c i t p
    cases t with
    | mk nm lv c0 ch tc =>
      cases p with
      | nil =>
        rw [show insertPath [] c i (.mk nm lv c0 ch tc) = .mk nm lv (c0 + c) ch tc from rfl]
        rw [massAt_nil, massAt_nil]
        simp [mass]
        ring
      | cons x p' =>
        rw [show insertPath [] c i (.mk nm lv c0 ch tc) = .mk nm lv (c0 + c) ch tc from rfl]
        rw [massAt_cons, massAt_cons]
        have hnp : ¬ ((x :: p') <+: ([] : List String)) := by
          simp [List.prefix_nil]
        rw [if_neg hnp]
        cases findChild x ch <;> simp
  | cons n rest ih =>
    intro c i t p
    cases t with
    | mk nm lv c0 ch tc =>
      rw [show insertPath (n :: rest) c i (.mk nm lv c0 ch tc) =
        .mk nm lv c0
          (setChild n (insertPath rest c (i + 1) ((findChild n ch).getD (.mk n (i + 1) 0 [] 0))) ch)
          tc from rfl]
      have hyname : (insertPath rest c (i + 1) ((findChild n ch).getD (.mk n (i + 1) 0 [] 0))).name = n :=
        insertPath_target_name rest c i
      cases p with
      | nil =>
        rw [massAt_nil, massAt_nil]
        simp only [mass, List.nil_prefix, if_true]
        rw [massL_setChild, mass_insertPath]
        cases hf : findChild n ch with
        | none =>
          simp [mass, massL]
          ring
        | some c1 =>
          simp
          ring
      | cons x p' =>
        rw [massAt_cons, massAt_cons]
        by_cases hx : x = n
        · subst hx
          simp only [CostNode.children_mk, findChild_setChild_same hyname]
          cases hf : findChild x ch with
          | none =>
            simp only [hf, Option.getD_none, ih]
            rw [massAt_leaf]
            simp [List.cons_prefix_cons]
          | some c1 =>
            simp only [hf, Option.getD_some, ih]
            simp [List.cons_prefix_cons]
        · simp only [CostNode.children_mk, findChild_setChild_other hyname hx]
          have hnp : ¬ ((x :: p') <+: (n :: rest)) := by
            simp [List.cons_prefix_cons, hx]
          rw [if_neg hnp]
          cases findChild x ch <;> simp

/-- Effect of one row insertion on node existence: exactly the prefixes of
the inserted path become (or stay) present. -/
theorem hasPath_insertPath : ∀ (q : List String) (c : ℚ) (i : ℕ) (t : CostNode) (p : List String),
    hasPath (insertPath q c i t) p = true ↔ (hasPath t p = true ∨ p <+: q) := by
  intro q
  induction q with
  | nil =>
    intro c i t p
    cases t with
    | mk nm lv c0 ch tc =>
      cases p with
      | nil => simp [insertPath, hasPath, nodeAt]
      | cons x p' =>
        rw [show insertPath [] c i (.mk nm lv c0 ch tc) = .mk nm lv (c0 + c) ch tc from rfl]
        rw [hasPath_cons, hasPath_cons]
        have hnp : ¬ ((x :: p') <+: ([] : List String)) := by
          simp [List.prefix_nil]
        cases findChild x ch <;> simp [hnp]
  | cons n rest ih =>
    intro c i t p
    cases t with
    | mk nm lv c0 ch tc =>
      rw [show insertPath (n :: rest) c i (.mk nm lv c0 ch tc) =
        .mk nm lv c0
          (setChild n (insertPath rest c (i + 1) ((findChild n ch).getD (.mk n (i + 1) 0 [] 0))) ch)
          tc from rfl]
      have hyname : (insertPath rest c (i + 1) ((findChild n ch).getD (.mk n (i + 1) 0 [] 0))).name = n :=
        insertPath_target_name rest c i
      cases p with
      | nil => simp [hasPath, nodeAt]
      | cons x p' =>
        rw [hasPath_cons, hasPath_cons]
        by_cases hx : x = n
        · subst hx
          simp only [CostNode.children_mk, findChild_setChild_same hyname]
          cases hf : findChild x ch with
          | none =>
            simp only [hf, Option.getD_none]
            rw [ih]
            cases p' with
            | nil => simp [hasPath, nodeAt, List.cons_prefix_cons]
            | cons z p'' => simp [hasPath_leaf, List.cons_prefix_cons]
          | some c1 =>
            simp only [hf, Option.getD_some]
            rw [ih]
            simp [List.cons_prefix_cons]
        · simp only [CostNode.children_mk, findChild_setChild_other hyname hx]
          have hnp : ¬ ((x :: p') <+: (n :: rest)) := by
            simp [List.cons_prefix_cons, hx]
          cases findChild x ch <;> simp [hnp]

/-! ### Level consistency -/

/-- Every node reachable at path `p` of `t` sits at level `i + |p|` (`i` is
the level of `t` itself). -/
def LevelInv (i : ℕ) (t : CostNode) : Prop :=
  ∀ (p : List String) (m : CostNode), nodeAt t p = some m → m.level = i + p.length

theorem levelInv_insertPath : ∀ (q : List String) (c : ℚ) (i : ℕ) (t : CostNode),
    LevelInv i t → LevelInv i (insertPath q c i t) := by
  intro q
  induction q with
  | nil =>
    intro c i t ht
    cases t with
    | mk nm lv c0 ch tc =>
      intro p m hm
      rw [show insertPath [] c i (.mk nm lv c0 ch tc) = .mk nm lv (c0 + c) ch tc from rfl] at hm
      cases p with
      | nil =>
        simp only [nodeAt, Option.some.injEq] at hm
        have := ht [] (.mk nm lv c0 ch tc) rfl
        simp at this
        simp [← hm, this]
      | cons x p' =>
        rw [nodeAt_cons] at hm
        apply ht (x :: p') m
        rw [nodeAt_cons]
        exact hm
  | cons n rest ih =>
    intro c i t ht
    cases t with
    | mk nm lv c0 ch tc =>
      intro p m hm
      rw [show insertPath (n :: rest) c i (.mk nm lv c0 ch tc) =
        .mk nm lv c0
          (setChild n (insertPath rest c (i + 1) ((findChild n ch).getD (.mk n (i + 1) 0 [] 0))) ch)
          tc from rfl] at hm
      have hyname : (insertPath rest c (i + 1) ((findChild n ch).getD (.mk n (i + 1) 0 [] 0))).name = n :=
        insertPath_target_name rest c i
      cases p with
      | nil =>
        simp only [nodeAt, Option.some.injEq] at hm
        have := ht [] (.mk nm lv c0 ch tc) rfl
        simp at this
        simp [← hm, this]
      | cons x p' =>
        rw [nodeAt_cons] at hm
        simp only [CostNode.children_mk] at hm
        by_cases hx : x = n
        · subst hx
          rw [findChild_setChild_same hyname] at hm
          have htarget : LevelInv (i + 1) ((findChild x ch).getD (.mk x (i + 1) 0 [] 0)) := by
            cases hf : findChild x ch with
            | none =>
              intro p'' m' hm'
              cases p'' with
              | nil =>
                simp only [Option.getD_none, nodeAt, Option.some.injEq] at hm'
                simp [← hm']
              | cons z p''' =>
                simp only [Option.getD_none] at hm'
                rw [nodeAt_leaf] at hm'
                cases hm'
            | some c1 =>
              intro p'' m' hm'
              simp only [Option.getD_some] at hm'
              have := ht (x :: p'') m'
              rw [nodeAt_cons] at this
              simp only [CostNode.children_mk, hf] at this
              have h2 := this hm'
              simp at h2
              omega
          have hy := ih c (i + 1) _ htarget
          have := hy p' m hm
          simp at this ⊢
          omega
        · rw [findChild_setChild_other hyname hx] at hm
          apply ht (x :: p') m
          rw [nodeAt_cons]
          simp only [CostNode.children_mk]
          exact hm

/-! ### The ingestion fold -/

/-- The direct cost a list of rows contributes to the node at path `p`: the
sum of the amounts of the rows whose walk terminates exactly at `p`. -/
def directAt (rows : List Row) (p : List String) : ℚ :=
  (rows.map (fun r => if rowPath r = p then parseAmount r.amount else 0)).sum

/-- The subtree cost a list of rows contributes below (and at) path `p`: the
sum of the amounts of the rows whose walk passes through `p`. -/
def subAt (rows : List Row) (p : List String) : ℚ :=
  (rows.map (fun r => if p <+: rowPath r then parseAmount r.amount else 0)).sum

theorem costAt_foldl : ∀ (rows : List Row) (t : CostNode) (p : List String),
    costAt (rows.foldl insertRow t) p = costAt t p + directAt rows p := by
  intro rows
  induction rows with
  | nil =>
    intro t p
    simp [directAt]
  | cons r rows ih =>
    intro t p
    rw [List.foldl_cons, ih, insertRow, costAt_insertPath]
    simp only [directAt, List.map_cons, List.sum_cons]
    by_cases hp : p = rowPath r
    · rw [if_pos hp, if_pos hp.symm]
      ring
    · rw [if_neg hp, if_neg (fun h => hp h.symm)]
      ring

theorem massAt_foldl : ∀ (rows : List Row) (t : CostNode) (p : List String),
    massAt (rows.foldl insertRow t) p = massAt t p + subAt rows p := by
  intro rows
  induction rows with
  | nil =>
    intro t p
    simp [subAt]
  | cons r rows ih =>
    intro t p
    rw [List.foldl_cons, ih, insertRow, massAt_insertPath]
    simp only [subAt, List.map_cons, List.sum_cons]
    ring

theorem hasPath_foldl : ∀ (rows : List Row) (t : CostNode) (p : List String),
    hasPath (rows.foldl insertRow t) p = true ↔
      (hasPath t p = true ∨ ∃ r ∈ rows, p <+: rowPath r) := by
  intro rows
  induction rows with
  | nil =>
    intro t p
    simp
  | cons r rows ih =>
    intro t p
    rw [List.foldl_cons, ih, insertRow]
    rw [hasPath_insertPath]
    constructor
    · rintro ((h | h) | ⟨r', hr', hp⟩)
      · exact Or.inl h
      · exact Or.inr ⟨r, List.mem_cons_self r rows, h⟩
      · exact Or.inr ⟨r', List.mem_cons_of_mem r hr', hp⟩
    · rintro (h | ⟨r', hr', hp⟩)
      · exact Or.inl (Or.inl h)
      · rcases List.mem_cons.mp hr' with h1 | h2
        · exact Or.inl (Or.inr (h1 ▸ hp))
        · exact Or.inr ⟨r', h2, hp⟩

theorem foldl_name : ∀ (rows : List Row) (t : CostNode),
    (rows.foldl insertRow t).name = t.name := by
  intro rows
  induction rows with
  | nil => intro t; rfl
  | cons r rows ih =>
    intro t
    rw [List.foldl_cons, ih, insertRow, insertPath_name]

theorem foldl_level : ∀ (rows : List Row) (t : CostNode),
    (rows.foldl insertRow t).level = t.level := by
  intro rows
  induction rows with
  | nil => intro t; rfl
  | cons r rows ih =>
    intro t
    rw [List.foldl_cons, ih, insertRow, insertPath_level]

/-! ### The aggregation pass -/

theorem calcTotal_name (t : CostNode) : (calcTotal t).name = t.name := by
  cases t
  simp [calcTotal]

theorem calcTotal_level (t : CostNode) : (calcTotal t).level = t.level := by
  cases t
  simp [calcTotal]

theorem calcTotal_cost (t : CostNode) : (calcTotal t).cost = t.cost := by
  cases t
  simp [calcTotal]

theorem calcTotal_children (nm : String) (lv : ℕ) (c : ℚ) (ch : List CostNode) (tc : ℚ) :
    (calcTotal (.mk nm lv c ch tc)).children = calcTotalL ch := by
  simp [calcTotal]

theorem mem_calcTotalL {m : CostNode} : ∀ {l : List CostNode},
    m ∈ calcTotalL l ↔ ∃ x ∈ l, m = calcTotal x := by
  intro l
  induction l with
  | nil => simp [calcTotalL]
  | cons a l ih =>
    simp only [calcTotalL, List.mem_cons, ih]
    constructor
    · rintro (h | ⟨x, hx, hm⟩)
      · exact ⟨a, Or.inl rfl, h⟩
      · exact ⟨x, Or.inr hx, hm⟩
    · rintro ⟨x, hx | hx, hm⟩
      · exact Or.inl (hx ▸ hm)
      · exact Or.inr ⟨x, hx, hm⟩

theorem findChild_calcTotalL (n : String) : ∀ (l : List CostNode),
    findChild n (calcTotalL l) = (findChild n l).map calcTotal := by
  intro l
  induction l with
  | nil => simp [calcTotalL, findChild]
  | cons a l ih =>
    by_cases ha : a.name = n
    · simp [calcTotalL, findChild, calcTotal_name, ha]
    · simp [calcTotalL, findChild, calcTotal_name, ha, ih]

theorem nodeAt_calcTotal : ∀ (p : List String) (t : CostNode),
    nodeAt (calcTotal t) p = (nodeAt t p).map calcTotal := by
  intro p
  induction p with
  | nil => intro t; rfl
  | cons x p' ih =>
    intro t
    cases t with
    | mk nm lv c ch tc =>
      rw [nodeAt_cons, nodeAt_cons]
      rw [calcTotal_children, CostNode.children_mk, findChild_calcTotalL]
      cases findChild x ch with
      | none => rfl
      | some c1 => simp [ih]

theorem sumTotals_calcTotalL : ∀ (l : List CostNode),
    (∀ x ∈ l, (calcTotal x).totalCost = mass x) → sumTotals (calcTotalL l) = massL l := by
  intro l
  induction l with
  | nil => intro _; rfl
  | cons a l ih =>
    intro h
    simp only [calcTotalL, sumTotals, List.map_cons, List.sum_cons, massL]
    rw [show (calcTotal a).totalCost = mass a from h a (List.mem_cons_self a l)]
    have := ih (fun x hx => h x (List.mem_cons_of_mem a hx))
    simp only [sumTotals] at this
    rw [this]

/-- After the aggregation pass a node's `totalCost` is the cost mass of its
(pre-pass) subtree. -/
theorem calcTotal_totalCost : ∀ (t : CostNode), (calcTotal t).totalCost = mass t := by
  apply CostNode.my_ind
  intro nm lv c ch tc ih
  show (calcTotal (.mk nm lv c ch tc)).totalCost = mass (.mk nm lv c ch tc)
  simp only [calcTotal, mass, CostNode.totalCost_mk]
  rw [sumTotals_calcTotalL ch ih]

theorem costAt_calcTotal (t : CostNode) (p : List String) :
    costAt (calcTotal t) p = costAt t p := by
  simp only [costAt, nodeAt_calcTotal]
  cases nodeAt t p with
  | none => rfl
  | some m => simp [calcTotal_cost]

theorem totalAt_calcTotal (t : CostNode) (p : List String) :
    totalAt (calcTotal t) p = massAt t p := by
  simp only [totalAt, massAt, nodeAt_calcTotal]
  cases nodeAt t p with
  | none => rfl
  | some m => simp [calcTotal_totalCost]

theorem hasPath_calcTotal (t : CostNode) (p : List String) :
    hasPath (calcTotal t) p = hasPath t p := by
  simp only [hasPath, nodeAt_calcTotal]
  cases nodeAt t p with
  | none => rfl
  | some m => rfl

/-! ### Characterization of the built tree -/

theorem costAt_processData (rows : List Row) (p : List String) :
    costAt (processData rows) p = directAt rows p := by
  rw [processData, costAt_calcTotal, buildTree, costAt_foldl]
  rw [show rootInit = CostNode.mk "Total" 0 0 [] 0 from rfl, costAt_leaf]
  ring

theorem totalAt_processData (rows : List Row) (p : List String) :
    totalAt (processData rows) p = subAt rows p := by
  rw [processData, totalAt_calcTotal, buildTree, massAt_foldl]
  rw [show rootInit = CostNode.mk "Total" 0 0 [] 0 from rfl, massAt_leaf]
  ring

theorem hasPath_processData (rows : List Row) (p : List String) :
    hasPath (processData rows) p = true ↔ (p = [] ∨ ∃ r ∈ rows, p <+: rowPath r) := by
  rw [processData, hasPath_calcTotal, buildTree, hasPath_foldl]
  cases p with
  | nil => simp [hasPath_nil]
  | cons x p' =>
    rw [show rootInit = CostNode.mk "Total" 0 0 [] 0 from rfl, hasPath_leaf]
    simp

theorem processData_name (rows : List Row) : (processData rows).name = "Total" := by
  rw [processData, calcTotal_name, buildTree, foldl_name]
  rfl

theorem processData_level (rows : List Row) : (processData rows).level = 0 := by
  rw [processData, calcTotal_level, buildTree, foldl_level]
  rfl

theorem subAt_nil_path (rows : List Row) :
    subAt rows [] = (rows.map (fun r => parseAmount r.amount)).sum := by
  simp [subAt, List.nil_prefix]

theorem processData_totalCost (rows : List Row) :
    (processData rows).totalCost = (rows.map (fun r => parseAmount r.amount)).sum := by
  rw [← totalAt_nil, totalAt_processData, subAt_nil_path]

theorem processData_cost (rows : List Row) :
    (processData rows).cost = directAt rows [] := by
  rw [← costAt_nil, costAt_processData]

/-! ### Pre-order traversal -/

theorem preorder_mk (nm : String) (lv : ℕ) (c : ℚ) (ch : List CostNode) (tc : ℚ) :
    preorder (.mk nm lv c ch tc) = .mk nm lv c ch tc :: preorderL ch := by
  simp [preorder]

theorem self_mem_preorder (t : CostNode) : t ∈ preorder t := by
  cases t with
  | mk nm lv c ch tc =>
    rw [preorder_mk]
    exact List.mem_cons_self _ _

theorem mem_preorderL {m : CostNode} : ∀ {l : List CostNode},
    m ∈ preorderL l ↔ ∃ x ∈ l, m ∈ preorder x := by
  intro l
  induction l with
  | nil => simp [preorderL]
  | cons a l ih =>
    simp only [preorderL, List.mem_append, ih]
    constructor
    · rintro (h | ⟨x, hx, hm⟩)
      · exact ⟨a, List.mem_cons_self a l, h⟩
      · exact ⟨x, List.mem_cons_of_mem a hx, hm⟩
    · rintro ⟨x, hx, hm⟩
      rcases List.mem_cons.mp hx with h1 | h2
      · exact Or.inl (h1 ▸ hm)
      · exact Or.inr ⟨x, h2, hm⟩

theorem mem_preorder_of_mem_child {t x m : CostNode} (hx : x ∈ t.children)
    (hm : m ∈ preorder x) : m ∈ preorder t := by
  cases t with
  | mk nm lv c ch tc =>
    rw [preorder_mk]
    exact List.mem_cons_of_mem _ (mem_preorderL.mpr ⟨x, hx, hm⟩)

theorem preorderL_calcTotalL : ∀ (l : List CostNode),
    (∀ x ∈ l, preorder (calcTotal x) = (preorder x).map calcTotal) →
    preorderL (calcTotalL l) = (preorderL l).map calcTotal := by
  intro l
  induction l with
  | nil => intro _; rfl
  | cons a l ih =>
    intro h
    simp only [calcTotalL, preorderL, List.map_append]
    rw [h a (List.mem_cons_self a l), ih (fun x hx => h x (List.mem_cons_of_mem a hx))]

/-- The aggregation pass transforms each node in place: the pre-order listing
of the processed tree is the processed pre-order listing. -/
theorem preorder_calcTotal : ∀ (t : CostNode),
    preorder (calcTotal t) = (preorder t).map calcTotal := by
  apply CostNode.my_ind
  intro nm lv c ch tc ih
  rw [show calcTotal (.mk nm lv c ch tc) =
    .mk nm lv c (calcTotalL ch) (c + sumTotals (calcTotalL ch)) from rfl]
  rw [preorder_mk, preorder_mk, List.map_cons]
  rw [preorderL_calcTotalL ch ih]
  rfl

theorem map_name_calcTotalL : ∀ (l : List CostNode),
    (calcTotalL l).map CostNode.name = l.map CostNode.name := by
  intro l
  induction l with
  | nil => rfl
  | cons a l ih => simp [calcTotalL, calcTotal_name, ih]

theorem findChild_mem {n : String} : ∀ {l : List CostNode} {c : CostNode},
    findChild n l = some c → c ∈ l := by
  intro l
  induction l with
  | nil => intro c h; simp [findChild] at h
  | cons a l ih =>
    intro c h
    by_cases ha : a.name = n
    · simp only [findChild, ha, if_true, Option.some.injEq] at h
      exact h ▸ List.mem_cons_self a l
    · simp only [findChild, ha, if_false] at h
      exact List.mem_cons_of_mem a (ih h)

/-! ### Sibling-name uniqueness invariant -/

/-- In every node of the tree, no two children share a name. -/
def NodupInv (t : CostNode) : Prop :=
  ∀ m ∈ preorder t, (m.children.map CostNode.name).Nodup

theorem nodupInv_of_child {t x : CostNode} (ht : NodupInv t) (hx : x ∈ t.children) :
    NodupInv x :=
  fun m hm => ht m (mem_preorder_of_mem_child hx hm)

theorem nodupInv_leaf (nm : String) (lv : ℕ) (c tc : ℚ) :
    NodupInv (.mk nm lv c [] tc) := by
  intro m hm
  rw [preorder_mk] at hm
  rcases List.mem_cons.mp hm with h | h
  · subst h; simp
  · simp [preorderL] at h

theorem nodupInv_insertPath : ∀ (q : List String) (c : ℚ) (i : ℕ) (t : CostNode),
    NodupInv t → NodupInv (insertPath q c i t) := by
  intro q
  induction q with
  | nil =>
    intro c i t ht
    cases t with
    | mk nm lv c0 ch tc =>
      intro m hm
      rw [show insertPath [] c i (.mk nm lv c0 ch tc) = .mk nm lv (c0 + c) ch tc from rfl] at hm
      rw [preorder_mk] at hm
      rcases List.mem_cons.mp hm with h | h
      · subst h
        have := ht _ (self_mem_preorder _)
        simpa using this
      · exact ht m (by rw [preorder_mk]; exact List.mem_cons_of_mem _ h)
  | cons n rest ih =>
    intro c i t ht
    cases t with
    | mk nm lv c0 ch tc =>
      intro m hm
      rw [show insertPath (n :: rest) c i (.mk nm lv c0 ch tc) =
        .mk nm lv c0
          (setChild n (insertPath rest c (i + 1) ((findChild n ch).getD (.mk n (i + 1) 0 [] 0))) ch)
          tc from rfl] at hm
      have hyname : (insertPath rest c (i + 1) ((findChild n ch).getD (.mk n (i + 1) 0 [] 0))).name = n :=
        insertPath_target_name rest c i
      have hchnodup : (ch.map CostNode.name).Nodup := by
        have := ht _ (self_mem_preorder _)
        simpa using this
      rw [preorder_mk] at hm
      rcases List.mem_cons.mp hm with h | h
      · subst h
        simp only [CostNode.children_mk]
        cases hf : findChild n ch with
        | some c1 =>
          rw [hf, Option.getD_some] at hyname
          simp only [Option.getD_some]
          rw [setChild_map_name_found hyname (by rw [hf]; exact fun hcon => Option.noConfusion hcon)]
          exact hchnodup
        | none =>
          rw [hf, Option.getD_none] at hyname
          simp only [Option.getD_none]
          rw [setChild_map_name_notfound hyname hf]
          have hnotin : n ∉ ch.map CostNode.name := findChild_eq_none_iff.mp hf
          have hperm : (ch.map CostNode.name ++ [n]).Perm (n :: ch.map CostNode.name) :=
            List.perm_append_singleton n (ch.map CostNode.name)
          rw [hperm.nodup_iff]
          exact List.nodup_cons.mpr ⟨hnotin, hchnodup⟩
      · rcases mem_preorderL.mp h with ⟨x, hx, hmx⟩
        rcases mem_setChild hx with h1 | h2
        · subst h1
          have htgt : NodupInv ((findChild n ch).getD (.mk n (i + 1) 0 [] 0)) := by
            cases hf : findChild n ch with
            | some c1 =>
              simp only [Option.getD_some]
              exact nodupInv_of_child ht (by simpa using findChild_mem hf)
            | none =>
              simp only [Option.getD_none]
              exact nodupInv_leaf _ _ _ _
          exact ih c (i + 1) _ htgt m hmx
        · exact nodupInv_of_child ht (by simpa using h2) m hmx

theorem nodupInv_calcTotal {t : CostNode} (ht : NodupInv t) : NodupInv (calcTotal t) := by
  intro m hm
  rw [preorder_calcTotal] at hm
  rcases List.mem_map.mp hm with ⟨m0, hm0, hmm⟩
  subst hmm
  cases m0 with
  | mk nm lv c ch tc =>
    rw [show calcTotal (.mk nm lv c ch tc) =
      .mk nm lv c (calcTotalL ch) (c + sumTotals (calcTotalL ch)) from rfl]
    simp only [CostNode.children_mk, map_name_calcTotalL]
    have := ht _ hm0
    simpa using this

theorem nodupInv_processData (rows : List Row) : NodupInv (processData rows) := by
  rw [processData]
  apply nodupInv_calcTotal
  rw [buildTree]
  have : ∀ (rs : List Row) (t : CostNode), NodupInv t → NodupInv (rs.foldl insertRow t) := by
    intro rs
    induction rs with
    | nil => intro t ht; exact ht
    | cons r rs ihr =>
      intro t ht
      rw [List.foldl_cons]
      exact ihr _ (nodupInv_insertPath _ _ _ _ ht)
  exact this rows rootInit (nodupInv_leaf _ _ _ _)

/-! ### Child-level consistency invariant -/

/-- In every node of the tree, each child sits one level below its parent. -/
def ChildLevelInv (t : CostNode) : Prop :=
  ∀ m ∈ preorder t, ∀ x ∈ m.children, x.level = m.level + 1

theorem childLevelInv_of_child {t x : CostNode} (ht : ChildLevelInv t)
    (hx : x ∈ t.children) : ChildLevelInv x :=
  fun m hm => ht m (mem_preorder_of_mem_child hx hm)

theorem childLevelInv_leaf (nm : String) (lv : ℕ) (c tc : ℚ) :
    ChildLevelInv (.mk nm lv c [] tc) := by
  intro m hm
  rw [preorder_mk] at hm
  rcases List.mem_cons.mp hm with h | h
  · subst h
    intro x hx
    simp at hx
  · simp [preorderL] at h

theorem childLevelInv_insertPath : ∀ (q : List String) (c : ℚ) (i : ℕ) (t : CostNode),
    t.level = i → ChildLevelInv t → ChildLevelInv (insertPath q c i t) := by
  intro q
  induction q with
  | nil =>
    intro c i t _ ht
    cases t with
    | mk nm lv c0 ch tc =>
      intro m hm
      rw [show insertPath [] c i (.mk nm lv c0 ch tc) = .mk nm lv (c0 + c) ch tc from rfl] at hm
      rw [preorder_mk] at hm
      rcases List.mem_cons.mp hm with h | h
      · subst h
        intro x hx
        simp only [CostNode.children_mk, CostNode.level_mk] at hx ⊢
        have := ht _ (self_mem_preorder _) x (by simpa using hx)
        simpa using this
      · exact ht m (by rw [preorder_mk]; exact List.mem_cons_of_mem _ h)
  | cons n rest ih =>
    intro c i t hlv ht
    cases t with
    | mk nm lv c0 ch tc =>
      simp only [CostNode.level_mk] at hlv
      intro m hm
      rw [show insertPath (n :: rest) c i (.mk nm lv c0 ch tc) =
        .mk nm lv c0
          (setChild n (insertPath rest c (i + 1) ((findChild n ch).getD (.mk n (i + 1) 0 [] 0))) ch)
          tc from rfl] at hm
      have hylevel : (insertPath rest c (i + 1) ((findChild n ch).getD (.mk n (i + 1) 0 [] 0))).level = i + 1 := by
        rw [insertPath_level]
        cases hf : findChild n ch with
        | none => simp
        | some c1 =>
          simp only [Option.getD_some]
          have := ht _ (self_mem_preorder _) c1 (by simpa using findChild_mem hf)
          simpa [hlv] using this
      rw [preorder_mk] at hm
      rcases List.mem_cons.mp hm with h | h
      · subst h
        intro x hx
        simp only [CostNode.children_mk, CostNode.level_mk] at hx ⊢
        rcases mem_setChild hx with h1 | h2
        · rw [h1, hylevel, hlv]
        · have := ht _ (self_mem_preorder _) x (by simpa using h2)
          simpa using this
      · rcases mem_preorderL.mp h with ⟨x, hx, hmx⟩
        rcases mem_setChild hx with h1 | h2
        · subst h1
          have htgt : ChildLevelInv ((findChild n ch).getD (.mk n (i + 1) 0 [] 0)) := by
            cases hf : findChild n ch with
            | some c1 =>
              simp only [Option.getD_some]
              exact childLevelInv_of_child ht (by simpa using findChild_mem hf)
            | none =>
              simp only [Option.getD_none]
              exact childLevelInv_leaf _ _ _ _
          have htgtlv : ((findChild n ch).getD (.mk n (i + 1) 0 [] 0)).level = i + 1 := by
            cases hf : findChild n ch with
            | some c1 =>
              simp only [Option.getD_some]
              have := ht _ (self_mem_preorder _) c1 (by simpa using findChild_mem hf)
              simpa [hlv] using this
            | none => simp
          exact ih c (i + 1) _ htgtlv htgt m hmx
        · exact childLevelInv_of_child ht (by simpa using h2) m hmx

theorem childLevelInv_calcTotal {t : CostNode} (ht : ChildLevelInv t) :
    ChildLevelInv (calcTotal t) := by
  intro m hm
  rw [preorder_calcTotal] at hm
  rcases List.mem_map.mp hm with ⟨m0, hm0, hmm⟩
  subst hmm
  cases m0 with
  | mk nm lv c ch tc =>
    rw [show calcTotal (.mk nm lv c ch tc) =
      .mk nm lv c (calcTotalL ch) (c + sumTotals (calcTotalL ch)) from rfl]
    intro x hx
    simp only [CostNode.children_mk, CostNode.level_mk] at hx ⊢
    rcases mem_calcTotalL.mp hx with ⟨x0, hx0, hxx⟩
    subst hxx
    rw [calcTotal_level]
    have := ht _ hm0 x0 (by simpa using hx0)
    simpa using this

theorem childLevelInv_processData (rows : List Row) : ChildLevelInv (processData rows) := by
  rw [processData]
  apply childLevelInv_calcTotal
  rw [buildTree]
  have : ∀ (rs : List Row) (t : CostNode), t.level = 0 → ChildLevelInv t →
      ChildLevelInv (rs.foldl insertRow t) := by
    intro rs
    induction rs with
    | nil => intro t _ ht; exact ht
    | cons r rs ihr =>
      intro t hlv ht
      rw [List.foldl_cons]
      exact ihr _ (by rw [insertRow, insertPath_level]; exact hlv)
        (childLevelInv_insertPath _ _ _ _ hlv ht)
  exact this rows rootInit rfl (childLevelInv_leaf _ _ _ _)

/-- Under child-level consistency, every descendant of a node sits at a level
at least the node's own. -/
theorem preorder_level_mono : ∀ (t : CostNode), ChildLevelInv t →
    ∀ m ∈ preorder t, t.level ≤ m.level := by
  apply CostNode.my_ind
  intro nm lv c ch tc ih ht m hm
  rw [preorder_mk] at hm
  rcases List.mem_cons.mp hm with h | h
  · subst h; exact le_refl _
  · rcases mem_preorderL.mp h with ⟨x, hx, hmx⟩
    have hxlv : x.level = lv + 1 := by
      have := ht _ (self_mem_preorder _) x (by simpa using hx)
      simpa using this
    have := ih x hx (childLevelInv_of_child ht (by simpa using hx)) m hmx
    simp only [CostNode.level_mk]
    omega

/-! ### The category indexer -/

theorem emitP_iff (m : CostNode) :
    emitP m = true ↔ (1 ≤ m.level ∧ m.level ≤ 3 ∧ 0 < m.totalCost) := by
  simp [emitP, Bool.and_eq_true, decide_eq_true_eq, and_assoc]

theorem extract_mk (nm : String) (lv : ℕ) (c : ℚ) (ch : List CostNode) (tc : ℚ)
    (path : List String) :
    extractCategories (.mk nm lv c ch tc) path =
      (if 1 ≤ lv ∧ lv ≤ 3 ∧ 0 < tc then
        [⟨lv, String.intercalate " > " (path ++ [nm]), path ++ [nm], .mk nm lv c ch tc⟩]
      else []) ++ (if lv < 3 then extractL ch (path ++ [nm]) else []) := by
  simp [extractCategories]

theorem extractL_cons (a : CostNode) (l : List CostNode) (path : List String) :
    extractL (a :: l) path = extractCategories a path ++ extractL l path := by
  simp [extractL]

theorem mem_extractL {o : CategoryOption} : ∀ {l : List CostNode} {path : List String},
    o ∈ extractL l path ↔ ∃ x ∈ l, o ∈ extractCategories x path := by
  intro l
  induction l with
  | nil => intro path; simp [extractL]
  | cons a l ih =>
    intro path
    rw [extractL_cons]
    simp only [List.mem_append, ih]
    constructor
    · rintro (h | ⟨x, hx, hm⟩)
      · exact ⟨a, List.mem_cons_self a l, h⟩
      · exact ⟨x, List.mem_cons_of_mem a hx, hm⟩
    · rintro ⟨x, hx, hm⟩
      rcases List.mem_cons.mp hx with h1 | h2
      · exact Or.inl (h1 ▸ hm)
      · exact Or.inr ⟨x, h2, hm⟩

/-- Every emitted option's stored level is its node's level, and its node
passes the emission filter. -/
theorem extract_option_fields : ∀ (t : CostNode), ∀ (path : List String),
    ∀ o ∈ extractCategories t path, o.level = o.node.level ∧ emitP o.node = true := by
  apply CostNode.my_ind
  intro nm lv c ch tc ih path o ho
  rw [extract_mk] at ho
  rcases List.mem_append.mp ho with h | h
  · by_cases hself : 1 ≤ lv ∧ lv ≤ 3 ∧ 0 < tc
    · rw [if_pos hself] at h
      rcases List.mem_singleton.mp h with rfl
      refine ⟨rfl, ?_⟩
      rw [emitP_iff]
      simpa using hself
    · rw [if_neg hself] at h
      simp at h
  · by_cases hrec : lv < 3
    · rw [if_pos hrec] at h
      rcases mem_extractL.mp h with ⟨x, hx, hox⟩
      exact ih x hx _ o hox
    · rw [if_neg hrec] at h
      simp at h

theorem extractL_map_node : ∀ (l : List CostNode) (path : List String),
    (∀ x ∈ l, ChildLevelInv x → ∀ path',
      (extractCategories x path').map CategoryOption.node = (preorder x).filter emitP) →
    (∀ x ∈ l, ChildLevelInv x) →
    (extractL l path).map CategoryOption.node = (preorderL l).filter emitP := by
  intro l
  induction l with
  | nil => intro path _ _; simp [extractL, preorderL]
  | cons a l ih =>
    intro path hpt hinv
    rw [extractL_cons, List.map_append]
    rw [show preorderL (a :: l) = preorder a ++ preorderL l from rfl, List.filter_append]
    rw [hpt a (List.mem_cons_self a l) (hinv a (List.mem_cons_self a l)) path]
    rw [ih path (fun x hx => hpt x (List.mem_cons_of_mem a hx))
      (fun x hx => hinv x (List.mem_cons_of_mem a hx))]

/-- The traversal of `extractCategories` lists exactly the pre-order nodes
that pass the emission filter, in pre-order: the self-emission happens before
the children are visited, and pruning at depth 3 only skips nodes that the
filter rejects anyway. -/
theorem extract_map_node : ∀ (t : CostNode), ChildLevelInv t → ∀ (path : List String),
    (extractCategories t path).map CategoryOption.node = (preorder t).filter emitP := by
  apply CostNode.my_ind
  intro nm lv c ch tc ih ht path
  rw [extract_mk, preorder_mk, List.filter_cons, List.map_append]
  have hemit : emitP (.mk nm lv c ch tc) = true ↔ (1 ≤ lv ∧ lv ≤ 3 ∧ 0 < tc) := by
    rw [emitP_iff]
    simp
  have hchinv : ∀ x ∈ ch, ChildLevelInv x := by
    intro x hx
    exact childLevelInv_of_child ht (by simpa using hx)
  have hfirst :
      (List.map CategoryOption.node
        (if 1 ≤ lv ∧ lv ≤ 3 ∧ 0 < tc then
          [⟨lv, String.intercalate " > " (path ++ [nm]), path ++ [nm], .mk nm lv c ch tc⟩]
        else ([] : List CategoryOption))) =
      (if emitP (.mk nm lv c ch tc) = true then [CostNode.mk nm lv c ch tc] else []) := by
    by_cases hself : 1 ≤ lv ∧ lv ≤ 3 ∧ 0 < tc
    · rw [if_pos hself, if_pos (hemit.mpr hself)]
      rfl
    · rw [if_neg hself, if_neg (fun hcon => hself (hemit.mp hcon))]
      rfl
  by_cases hrec : lv < 3
  · rw [if_pos hrec]
    rw [extractL_map_node ch (path ++ [nm]) (fun x hx hx2 path' => ih x hx hx2 path') hchinv]
    rw [hfirst]
    by_cases hem : emitP (.mk nm lv c ch tc) = true
    · rw [if_pos hem, if_pos hem]
      simp
    · rw [if_neg hem, if_neg hem]
      simp
  · rw [if_neg hrec]
    have hnil : (preorderL ch).filter emitP = [] := by
      rw [List.filter_eq_nil_iff]
      intro m hm
      rcases mem_preorderL.mp hm with ⟨x, hx, hmx⟩
      have hxlv : x.level = lv + 1 := by
        have := ht _ (self_mem_preorder _) x (by simpa using hx)
        simpa using this
      have hmono := preorder_level_mono x (hchinv x hx) m hmx
      intro hcon
      rw [emitP_iff] at hcon
      omega
    rw [hnil, hfirst]
    by_cases hem : emitP (.mk nm lv c ch tc) = true
    · rw [if_pos hem]
      simp
    · rw [if_neg hem]
      simp

/-- For a level-0 root, the indexer's traversal of the root's children
yields exactly the filtered pre-order of the whole tree (the root itself,
having level 0, never passes the filter). -/
theorem indexTree_map_node (t : CostNode) (ht : ChildLevelInv t) (hlv : t.level = 0) :
    (indexTree t).map CategoryOption.node = (preorder t).filter emitP := by
  cases t with
  | mk nm lv c ch tc =>
    simp only [CostNode.level_mk] at hlv
    subst hlv
    rw [indexTree, CostNode.children_mk, preorder_mk, List.filter_cons]
    have hem : ¬ emitP (.mk nm 0 c ch tc) = true := by
      rw [emitP_iff]
      simp
    rw [if_neg hem]
    exact extractL_map_node ch []
      (fun x hx hx2 path' => extract_map_node x hx2 path')
      (fun x hx => childLevelInv_of_child ht (by simpa using hx))

/-- After the aggregation pass, every node satisfies the aggregation
equation. -/
theorem aggOk_calcTotal : ∀ (t : CostNode),
    ∀ m ∈ preorder (calcTotal t), m.totalCost = m.cost + sumTotals m.children := by
  apply CostNode.my_ind
  intro nm lv c ch tc ih m hm
  rw [show calcTotal (.mk nm lv c ch tc) =
    .mk nm lv c (calcTotalL ch) (c + sumTotals (calcTotalL ch)) from rfl] at hm
  rw [preorder_mk] at hm
  rcases List.mem_cons.mp hm with h | h
  · subst h
    simp
  · rcases mem_preorderL.mp h with ⟨x, hx, hmx⟩
    rcases mem_calcTotalL.mp hx with ⟨x0, hx0, hxx⟩
    subst hxx
    exact ih x0 hx0 m hmx

theorem bool_eq_of_iff {a b : Bool} (h : (a = true) ↔ (b = true)) : a = b := by
  cases a <;> cases b <;> simp_all

/-! ### Concrete amount values -/

theorem parseAmount_val {s : String} {neg : Bool} {ip fp : List Char} {e : ℤ}
    (h : parseFloatParts s = some (neg, ip, fp, e)) :
    parseAmount (some s) = ratOfParts (neg, ip, fp, e) := by
  simp [parseAmount, parseFloat, h]

theorem parseAmount_ten : parseAmount (some "10") = 10 := by
  rw [parseAmount_val (by decide : parseFloatParts "10" = some (false, ['1', '0'], [], 0))]
  rw [ratOfParts, show digitsVal ['1', '0'] = 10 from rfl, show digitsVal [] = 0 from rfl]
  norm_num

theorem parseAmount_fifteen : parseAmount (some "15") = 15 := by
  rw [parseAmount_val (by decide : parseFloatParts "15" = some (false, ['1', '5'], [], 0))]
  rw [ratOfParts, show digitsVal ['1', '5'] = 15 from rfl, show digitsVal [] = 0 from rfl]
  norm_num

theorem parseAmount_five : parseAmount (some "5") = 5 := by
  rw [parseAmount_val (by decide : parseFloatParts "5" = some (false, ['5'], [], 0))]
  rw [ratOfParts, show digitsVal ['5'] = 5 from rfl, show digitsVal [] = 0 from rfl]
  norm_num

theorem parseAmount_prefix_twelve : parseAmount (some "12abc") = 12 := by
  rw [parseAmount_val (by decide : parseFloatParts "12abc" = some (false, ['1', '2'], [], 0))]
  rw [ratOfParts, show digitsVal ['1', '2'] = 12 from rfl, show digitsVal [] = 0 from rfl]
  norm_num

theorem parseFloat_na : parseFloat "N/A" = none := by decide

theorem parseAmount_na : parseAmount (some "N/A") = 0 := by
  simp [parseAmount, parseFloat_na]

/-! ### Row path shape -/

theorem range_six : List.range 6 = [0, 1, 2, 3, 4, 5] := rfl

theorem rowPath_eq_nil_iff (r : Row) : rowPath r = [] ↔ trimAt r 0 = "" := by
  by_cases h : trimAt r 0 = ""
  · simp [rowPath, range_six, List.takeWhile_cons, h]
  · simp [rowPath, range_six, List.takeWhile_cons, h]

/-- The walk of a row whose first blank trimmed cell is at (0-based) index
`k` follows exactly the first `k` trimmed cells: the blank is a hard stop,
whatever is in the deeper columns. -/
theorem rowPath_of_first_blank (r : Row) (k : ℕ) (hk : k < 6)
    (hnb : ∀ i, i < k → trimAt r i ≠ "") (hb : trimAt r k = "") :
    rowPath r = (List.range k).map (trimAt r) := by
  interval_cases k <;>
    simp_all [rowPath, range_six, List.takeWhile_cons, List.range_succ]

theorem directAt_single (r : Row) (p : List String) :
    directAt [r] p = if rowPath r = p then parseAmount r.amount else 0 := by
  simp [directAt]

/-! ### The claims -/

/-- C1: for every input row sequence, in the tree returned by `processData`
(after the `calculateTotal` finalization pass) every node satisfies
`totalCost = cost + Σ totalCost(child)` over its children. -/
theorem C1_aggregation_invariant (rows : List Row) :
    (preorder (processData rows)).Forall
      (fun m => m.totalCost = m.cost + sumTotals m.children) := by
  rw [List.forall_iff_forall_mem]
  intro m hm
  rw [processData] at hm
  exact aggOk_calcTotal (buildTree rows) m hm

/-- C2: the root's `totalCost` equals the sum of the parsed amounts of all
input rows (unparsable amounts counting as 0), and the value is invariant
under permutation of the rows. -/
theorem C2_root_total (rows rows' : List Row) (h : rows.Perm rows') :
    (processData rows).totalCost = (rows.map (fun r => parseAmount r.amount)).sum ∧
    (processData rows').totalCost = (processData rows).totalCost := by
  constructor
  · exact processData_totalCost rows
  · rw [processData_totalCost, processData_totalCost]
    exact ((h.map _).sum_eq).symm

theorem C2_root_total_witness :
    (processData [⟨["A"], some "1"⟩, ⟨["B"], some "2"⟩]).totalCost =
      (([⟨["A"], some "1"⟩, ⟨["B"], some "2"⟩] : List Row).map
        (fun r => parseAmount r.amount)).sum ∧
    (processData [⟨["B"], some "2"⟩, ⟨["A"], some "1"⟩]).totalCost =
      (processData [⟨["A"], some "1"⟩, ⟨["B"], some "2"⟩]).totalCost :=
  C2_root_total [⟨["A"], some "1"⟩, ⟨["B"], some "2"⟩]
    [⟨["B"], some "2"⟩, ⟨["A"], some "1"⟩] (by decide)

/-- C3: permuting the input rows changes no per-path observation of the
built tree: a category path leads to a node in one tree iff it does in the
other, and corresponding nodes carry identical `cost` (directCost) and
identical `totalCost`; only sibling order may differ. -/
theorem C3_permutation_invariance (rows rows' : List Row) (h : rows.Perm rows') :
    ∀ p : List String,
      hasPath (processData rows) p = hasPath (processData rows') p ∧
      costAt (processData rows) p = costAt (processData rows') p ∧
      totalAt (processData rows) p = totalAt (processData rows') p := by
  intro p
  refine ⟨?_, ?_, ?_⟩
  · apply bool_eq_of_iff
    rw [hasPath_processData, hasPath_processData]
    have hex : (∃ r ∈ rows, p <+: rowPath r) ↔ (∃ r ∈ rows', p <+: rowPath r) := by
      constructor
      · rintro ⟨r, hr, hp⟩
        exact ⟨r, h.mem_iff.mp hr, hp⟩
      · rintro ⟨r, hr, hp⟩
        exact ⟨r, h.mem_iff.mpr hr, hp⟩
    rw [hex]
  · rw [costAt_processData, costAt_processData, directAt, directAt]
    exact (h.map _).sum_eq
  · rw [totalAt_processData, totalAt_processData, subAt, subAt]
    exact (h.map _).sum_eq

theorem C3_permutation_invariance_witness :
    hasPath (processData [⟨["A"], some "1"⟩, ⟨["B"], some "2"⟩]) ["A"] =
      hasPath (processData [⟨["B"], some "2"⟩, ⟨["A"], some "1"⟩]) ["A"] ∧
    costAt (processData [⟨["A"], some "1"⟩, ⟨["B"], some "2"⟩]) ["A"] =
      costAt (processData [⟨["B"], some "2"⟩, ⟨["A"], some "1"⟩]) ["A"] ∧
    totalAt (processData [⟨["A"], some "1"⟩, ⟨["B"], some "2"⟩]) ["A"] =
      totalAt (processData [⟨["B"], some "2"⟩, ⟨["A"], some "1"⟩]) ["A"] :=
  C3_permutation_invariance [⟨["A"], some "1"⟩, ⟨["B"], some "2"⟩]
    [⟨["B"], some "2"⟩, ⟨["A"], some "1"⟩] (by decide) ["A"]

/-- C4: a blank level is a hard stop.  In general: when a row's first blank
trimmed level cell sits at 0-based index `k` (deeper cells possibly
populated), the walk follows exactly the first `k` cells, the whole amount
lands on the node reached at depth `k`, and every node of the resulting tree
lies on that truncated path.  Concretely: the row `{L1:"A", L2:"", L3:"X"}`
with amount "10" puts all 10 on node "A" at depth 1 and creates no node
named "X". -/
theorem C4_blank_level_stop :
    (∀ (r : Row) (k : ℕ), k < 6 → (∀ i, i < k → trimAt r i ≠ "") → trimAt r k = "" →
      (∃ j, j < 6 ∧ k < j ∧ trimAt r j ≠ "") →
      rowPath r = (List.range k).map (trimAt r) ∧
      (rowPath r).length = k ∧
      costAt (processData [r]) (rowPath r) = parseAmount r.amount ∧
      (∀ p, hasPath (processData [r]) p = true → p <+: rowPath r)) ∧
    rowPath (⟨["A", "", "X"], some "10"⟩ : Row) = ["A"] ∧
    costAt (processData [⟨["A", "", "X"], some "10"⟩]) ["A"] = 10 ∧
    (preorder (processData [⟨["A", "", "X"], some "10"⟩])).Forall (fun m => m.name ≠ "X") := by
  refine ⟨?_, by decide, ?_, by decide⟩
  · intro r k hk hnb hb _
    have hpath := rowPath_of_first_blank r k hk hnb hb
    refine ⟨hpath, by rw [hpath]; simp, ?_, ?_⟩
    · rw [costAt_processData, directAt_single, if_pos rfl]
    · intro p hp
      rw [hasPath_processData] at hp
      rcases hp with h0 | ⟨r', hr', hpre⟩
      · rw [h0]
        exact List.nil_prefix
      · rcases List.mem_singleton.mp hr' with rfl
        exact hpre
  · rw [costAt_processData, directAt_single]
    rw [if_pos (by decide : rowPath (⟨["A", "", "X"], some "10"⟩ : Row) = ["A"])]
    exact parseAmount_ten

theorem C4_blank_level_stop_witness :
    rowPath (⟨["A", "", "X"], some "10"⟩ : Row) =
      (List.range 1).map (trimAt ⟨["A", "", "X"], some "10"⟩) ∧
    (rowPath (⟨["A", "", "X"], some "10"⟩ : Row)).length = 1 ∧
    costAt (processData [⟨["A", "", "X"], some "10"⟩])
      (rowPath (⟨["A", "", "X"], some "10"⟩ : Row)) =
      parseAmount (Row.mk ["A", "", "X"] (some "10")).amount ∧
    (∀ p, hasPath (processData [⟨["A", "", "X"], some "10"⟩]) p = true →
      p <+: rowPath (⟨["A", "", "X"], some "10"⟩ : Row)) :=
  C4_blank_level_stop.1 ⟨["A", "", "X"], some "10"⟩ 1 (by decide)
    (by decide) (by decide) ⟨2, by decide, by decide, by decide⟩

/-- C5 (counterexample): a row whose first level cell is blank deposits its
amount directly on the root, so the root's directCost is not always 0. -/
theorem C5_root_directCost_counterexample :
    (processData [⟨[], some "5"⟩]).cost ≠ 0 := by
  rw [processData_cost, directAt_single]
  rw [if_pos (by decide : rowPath (⟨[], some "5"⟩ : Row) = [])]
  have h5 : parseAmount (Row.mk [] (some "5")).amount = 5 := parseAmount_five
  rw [h5]
  norm_num

/-- C5 (amended): the root always has level 0 and name "Total"; its
directCost is the summed amount of the rows whose walk stops before level 1
(first trimmed cell blank), and in particular is 0 whenever every row has a
populated first level. -/
theorem C5_root_shape (rows : List Row) :
    (processData rows).level = 0 ∧ (processData rows).name = "Total" ∧
    (processData rows).cost = directAt rows [] ∧
    ((∀ r ∈ rows, trimAt r 0 ≠ "") → (processData rows).cost = 0) := by
  refine ⟨processData_level rows, processData_name rows, processData_cost rows, ?_⟩
  intro hall
  rw [processData_cost rows, directAt]
  apply List.sum_eq_zero
  intro x hx
  rcases List.mem_map.mp hx with ⟨r, hr, hxx⟩
  rw [← hxx, if_neg]
  intro hcon
  exact hall r hr ((rowPath_eq_nil_iff r).mp hcon)

theorem C5_root_shape_witness :
    (processData [⟨["A"], some "1"⟩]).level = 0 ∧
    (processData [⟨["A"], some "1"⟩]).name = "Total" ∧
    (processData [⟨["A"], some "1"⟩]).cost = 0 :=
  ⟨(C5_root_shape [⟨["A"], some "1"⟩]).1, (C5_root_shape [⟨["A"], some "1"⟩]).2.1,
    (C5_root_shape [⟨["A"], some "1"⟩]).2.2.2 (by decide)⟩

/-- C6: the indexer emits an option for a node iff the node's level is in
`[1,3]` and its `totalCost` is strictly positive; every emitted option
carries its node's level, within those bounds.  (Children of depth-3 nodes,
at depth ≥ 4, are consequently never emitted.) -/
theorem C6_depth_bound_filter (rows : List Row) :
    (indexTree (processData rows)).Forall
      (fun o => o.level = o.node.level ∧ 1 ≤ o.level ∧ o.level ≤ 3 ∧ 0 < o.node.totalCost) ∧
    (preorder (processData rows)).Forall
      (fun m => (∃ o ∈ indexTree (processData rows), o.node = m) ↔
        (1 ≤ m.level ∧ m.level ≤ 3 ∧ 0 < m.totalCost)) := by
  have hmap := indexTree_map_node _ (childLevelInv_processData rows) (processData_level rows)
  constructor
  · rw [List.forall_iff_forall_mem]
    intro o ho
    rw [indexTree] at ho
    rcases mem_extractL.mp ho with ⟨x, hx, hox⟩
    have hf := extract_option_fields x [] o hox
    have hemit := (emitP_iff o.node).mp hf.2
    exact ⟨hf.1, by rw [hf.1]; exact hemit.1, by rw [hf.1]; exact hemit.2.1, hemit.2.2⟩
  · rw [List.forall_iff_forall_mem]
    intro m hm
    constructor
    · rintro ⟨o, ho, hom⟩
      have hmem : o.node ∈ (indexTree (processData rows)).map CategoryOption.node :=
        List.mem_map.mpr ⟨o, ho, rfl⟩
      rw [hmap] at hmem
      have hp := List.of_mem_filter hmem
      rw [hom] at hp
      exact (emitP_iff m).mp hp
    · intro hcond
      have hmem : m ∈ (preorder (processData rows)).filter emitP :=
        List.mem_filter.mpr ⟨hm, (emitP_iff m).mpr hcond⟩
      rw [← hmap] at hmem
      rcases List.mem_map.mp hmem with ⟨o, ho, hom⟩
      exact ⟨o, ho, hom⟩

/-- C7: the indexer's output lists nodes in exactly pre-order-filtered
order (each node before its descendants, siblings in first-encounter
order), and rebuilding and reindexing the same input yields the same
option list. -/
theorem C7_preorder_ordering (rows : List Row) :
    (indexTree (processData rows)).map CategoryOption.node =
      (preorder (processData rows)).filter emitP ∧
    indexTree (processData rows) = indexTree (processData rows) :=
  ⟨indexTree_map_node _ (childLevelInv_processData rows) (processData_level rows), rfl⟩

/-- C8: a row with an absent or unparsable amount contributes exactly 0 to
every node's directCost (the tree's per-path costs are unchanged by
appending such a row), yet still creates every node on its category path;
the build is total, so no failure is possible. -/
theorem C8_unparsable_amount (rows : List Row) (r : Row)
    (h : r.amount = none ∨ ∃ s, r.amount = some s ∧ parseFloat s = none) :
    parseAmount r.amount = 0 ∧
    (∀ p, costAt (processData (rows ++ [r])) p = costAt (processData rows) p) ∧
    (∀ p, totalAt (processData (rows ++ [r])) p = totalAt (processData rows) p) ∧
    (∀ p, p <+: rowPath r → hasPath (processData (rows ++ [r])) p = true) := by
  have hz : parseAmount r.amount = 0 := by
    rcases h with h | ⟨s, hs, hps⟩
    · rw [h]
      rfl
    · rw [hs]
      simp [parseAmount, hps]
  refine ⟨hz, ?_, ?_, ?_⟩
  · intro p
    rw [costAt_processData, costAt_processData, directAt, directAt,
      List.map_append, List.sum_append]
    simp [hz]
  · intro p
    rw [totalAt_processData, totalAt_processData, subAt, subAt,
      List.map_append, List.sum_append]
    simp [hz]
  · intro p hp
    rw [hasPath_processData]
    exact Or.inr ⟨r, by simp, hp⟩

theorem C8_unparsable_amount_witness :
    parseAmount (Row.mk ["Food", "Lunch"] (some "N/A")).amount = 0 ∧
    costAt (processData ([] ++ [⟨["Food", "Lunch"], some "N/A"⟩])) ["Food", "Lunch"] =
      costAt (processData []) ["Food", "Lunch"] ∧
    hasPath (processData ([] ++ [⟨["Food", "Lunch"], some "N/A"⟩])) ["Food"] = true :=
  have h := C8_unparsable_amount [] ⟨["Food", "Lunch"], some "N/A"⟩
    (Or.inr ⟨"N/A", rfl, by decide⟩)
  ⟨h.1, h.2.1 ["Food", "Lunch"], h.2.2.2 ["Food"] ⟨["Lunch"], by decide⟩⟩

/-- C9: in every built tree no two children of the same parent share a
name; rows with equal trimmed paths accumulate into the single node at that
path — two `Food/Lunch` rows with amounts "10" and "15" give that one node
directCost 25. -/
theorem C9_sibling_uniqueness :
    (∀ rows : List Row, (preorder (processData rows)).Forall
      (fun m => (m.children.map CostNode.name).Nodup)) ∧
    costAt (processData [⟨["Food", "Lunch"], some "10"⟩, ⟨["Food", "Lunch"], some "15"⟩])
      ["Food", "Lunch"] = 25 := by
  constructor
  · intro rows
    rw [List.forall_iff_forall_mem]
    exact fun m hm => nodupInv_processData rows m hm
  · rw [costAt_processData, directAt]
    simp only [List.map_cons, List.map_nil, List.sum_cons, List.sum_nil]
    rw [if_pos (by decide : rowPath (⟨["Food", "Lunch"], some "10"⟩ : Row) = ["Food", "Lunch"])]
    rw [if_pos (by decide : rowPath (⟨["Food", "Lunch"], some "15"⟩ : Row) = ["Food", "Lunch"])]
    have h1 : parseAmount (Row.mk ["Food", "Lunch"] (some "10")).amount = 10 := parseAmount_ten
    have h2 : parseAmount (Row.mk ["Food", "Lunch"] (some "15")).amount = 15 := parseAmount_fifteen
    rw [h1, h2]
    norm_num

/-- C10: amount parsing is prefix-based, not all-or-nothing: "12abc" parses
to 12 and a row carrying it contributes 12 (not 0) to the node it reaches. -/
theorem C10_prefix_parse :
    parseAmount (some "12abc") = 12 ∧
    costAt (processData [⟨["A"], some "12abc"⟩]) ["A"] = 12 := by
  refine ⟨parseAmount_prefix_twelve, ?_⟩
  rw [costAt_processData, directAt_single]
  rw [if_pos (by decide : rowPath (⟨["A"], some "12abc"⟩ : Row) = ["A"])]
  exact parseAmount_prefix_twelve
